import Mathlib

/-!
Shallow embedding of the pyseis numerical core (fmi_spectra, fmi_inversion,
model_turbulence / model_bedload frequency handling and grain-size density,
spatial_amplitude, spatial_distance, spatial_pmax) and proofs settling the
frozen specification claims.  Python floats are modelled as real numbers
(`ℝ`); NaN, where the code branches on it, is modelled as `Option ℝ` with
`none` standing for NaN.
-/

namespace Pyseis

/-- `np.linspace(a, b, n)`: `n` evenly spaced samples from `a` to `b`
inclusive.  For `n = 1` numpy returns `[a]`; in our real-number model the
division by `n - 1 = 0` yields `0`, giving the same result. -/
noncomputable def linspace (a b : ℝ) (n : ℕ) : List ℝ :=
  (List.range n).map (fun k : ℕ => a + ((b - a) * k) / ((n : ℝ) - 1))

/-! ## Frequency-axis handling (model_turbulence / model_bedload)

`src/bin/model_turbulence.py` lines 90-94:
```
if isinstance(f, (tuple, list)) and len(f) == 2:
    f_seq = np.linspace(f[0], f[1], res)
else:
    f_seq = np.array(f)
```
`src/pyseis/model_bedload.py` line 177 (unconditionally):
```
f_i = np.linspace(f[0], f[1], res)
```
-/

/-- Frequency axis of `model_turbulence`: a 2-element range is expanded via
`np.linspace`, anything else is used verbatim. -/
noncomputable def turbulenceFreq (f : List ℝ) (res : ℕ) : List ℝ :=
  if f.length = 2 then linspace (f.headD 0) (f.getD 1 0) res else f

/-- Frequency axis of `model_bedload`: always `np.linspace(f[0], f[1], res)`,
whatever the length of `f`. -/
noncomputable def bedloadFreq (f : List ℝ) (res : ℕ) : List ℝ :=
  linspace (f.headD 0) (f.getD 1 0) res

theorem linspace_length (a b : ℝ) (n : ℕ) : (linspace a b n).length = n := by
  rw [linspace, List.length_map, List.length_range]

/-- C5 counterexample: the bedload model does not use a length-3 frequency
vector verbatim; with `f = [1, 2, 4]` and `res = 2` it returns
`linspace 1 2 2 = [1, 2] ≠ [1, 2, 4]`. -/
theorem bedloadFreq_not_verbatim :
    bedloadFreq [(1 : ℝ), 2, 4] 2 ≠ [(1 : ℝ), 2, 4] := by
  intro h
  have hl := congrArg List.length h
  simp [bedloadFreq, linspace_length] at hl

/-- C5 (amended): the turbulence model uses a frequency vector of length ≠ 2
verbatim and expands a 2-element range to `res` linearly spaced points; the
bedload model always expands to `res` points between `f[0]` and `f[1]`,
regardless of the length of `f`. -/
theorem freq_axis_spec (f : List ℝ) (res : ℕ) :
    (f.length ≠ 2 → turbulenceFreq f res = f) ∧
    (f.length = 2 →
      turbulenceFreq f res = linspace (f.headD 0) (f.getD 1 0) res) ∧
    bedloadFreq f res = linspace (f.headD 0) (f.getD 1 0) res := by
  refine ⟨fun h => ?_, fun h => ?_, rfl⟩
  · simp [turbulenceFreq, h]
  · simp [turbulenceFreq, h]

/-- Witness for `freq_axis_spec` at concrete inputs. -/
theorem freq_axis_spec_witness :
    (([(1 : ℝ), 2, 4].length ≠ 2) ∧ turbulenceFreq [(1 : ℝ), 2, 4] 7 = [1, 2, 4]) ∧
    (([(5 : ℝ), 80].length = 2) ∧
      turbulenceFreq [(5 : ℝ), 80] 3 = linspace 5 80 3) := by
  refine ⟨⟨by decide, ?_⟩, ⟨by decide, ?_⟩⟩
  · exact (freq_axis_spec [(1 : ℝ), 2, 4] 7).1 (by decide)
  · exact ((freq_axis_spec [(5 : ℝ), 80] 3).2.1 (by decide)).trans (by
      simp [linspace])

/-! ## Reference-catalogue builder (`src/pyseis/fmi_spectra.py`, function `f`)

A pandas `DataFrame` with a `frequency` and a `power` column, plus the
optionally added `spectrum` column, is modelled as a record. -/

/-- Model output frame: `frequency`/`power` columns of the model
`DataFrame`s; `spectrum` is the extra column added by `f` (absent = `none`). -/
structure Frame where
  frequency : List ℝ
  power : List ℝ
  spectrum : Option (List ℝ) := none

/-- `10 * np.log10 x` — linear power to dB. -/
noncomputable def dB (x : ℝ) : ℝ := 10 * Real.logb 10 x

/-- Catalogue entry returned by `f` (keys of the returned dict). -/
structure CatalogueEntry where
  frequency : List ℝ
  power : List ℝ
  turbulence : List ℝ
  bedload : List ℝ

/-- `fmi_spectra.f`, lines 48-68, applied to the two model outputs:
`p_combined` is a copy of `p_turbulence` with a new `spectrum` column holding
the elementwise sum of the two powers; the log conversion then reads the
`power` column of each frame. -/
noncomputable def fmiSpectraEntry (p_turbulence p_bedload : Frame) :
    CatalogueEntry :=
  let p_combined : Frame :=
    { p_turbulence with
      spectrum := some (List.zipWith (· + ·) p_turbulence.power p_bedload.power) }
  let p_turbulence_log : Frame := { p_turbulence with power := p_turbulence.power.map dB }
  let p_bedload_log : Frame := { p_bedload with power := p_bedload.power.map dB }
  let p_combined_log : Frame := { p_combined with power := p_combined.power.map dB }
  { frequency := p_combined_log.frequency
    power := p_combined_log.power
    turbulence := p_turbulence_log.power
    bedload := p_bedload_log.power }

/-- C1: evaluation of `fmi_spectra.f` at a failing input.  With turbulence
power `[1]` and bedload power `[3]` the stored `power` vector is
`[10*log10 1] = [0]`, whereas `10*log10` of the summed linear spectra is
`[10*log10 4] ≠ [0]`: the `spectrum` column holding the sum is never read by
the dB conversion, so the bedload contribution is dropped. -/
theorem fmi_spectra_power_ignores_bedload :
    (fmiSpectraEntry ⟨[5], [1], none⟩ ⟨[5], [3], none⟩).power = [0] ∧
    (List.zipWith (· + ·) (Frame.power ⟨[5], [1], none⟩)
        (Frame.power ⟨[5], [3], none⟩)).map dB = [dB 4] ∧
    dB 4 ≠ 0 := by
  refine ⟨?_, by norm_num, ?_⟩
  · simp [fmiSpectraEntry, dB, Real.logb_one]
  · have h4 : (0 : ℝ) < Real.logb 10 4 :=
      Real.logb_pos (by norm_num) (by norm_num)
    simp only [dB]
    positivity

/-! ## Spatial amplitude locator (`src/pyseis/spatial_amplitude.py`)

`model_fun`, lines 10-14:
```
def model_fun(params, d, a_d, f, q, v):
    a_0 = params[0]
    return a_d - a_0 / np.sqrt(d.sum()) * np.exp(-(
        (np.pi * f * d.sum()) / (q * v)
        ))
```
-/

/-- `spatial_amplitude.model_fun`: the residual vector handed to
`scipy.optimize.least_squares`.  Note that the code collapses the per-station
distance vector with `d.sum()`. -/
noncomputable def model_fun (params : List ℝ) (d a_d : List ℝ) (f q v : ℝ) :
    List ℝ :=
  let a_0 := params.headD 0
  a_d.map (fun a =>
    a - a_0 / Real.sqrt d.sum * Real.exp (-((Real.pi * f * d.sum) / (q * v))))

/-- Modelled from the spec: the residual the claim states, with each
station's own distance `d[s]` in its component. -/
noncomputable def model_fun_claimed (params : List ℝ) (d a_d : List ℝ)
    (f q v : ℝ) : List ℝ :=
  let a_0 := params.headD 0
  List.zipWith (fun a dist =>
    a - a_0 / Real.sqrt dist * Real.exp (-((Real.pi * f * dist) / (q * v))))
    a_d d

/-- C2: evaluation at a failing input.  At a cell with station distances
`d = [1, 4]`, observed amplitudes `a_d = [1, 1]`, `f = q = v = 1` and start
amplitude `a_0 = 1`, the residual vector computed by the code differs from
the per-station-distance residual vector of the claim: the code plugs the
total distance `Σd = 5` into every component. -/
theorem model_fun_uses_total_distance :
    model_fun [1] [1, 4] [1, 1] 1 1 1 ≠
      model_fun_claimed [1] [1, 4] [1, 1] 1 1 1 := by
  intro h
  have h0 := congrArg (fun l => l.headD 0) h
  have hsum : ([(1 : ℝ), 4].sum) = 5 := by norm_num
  simp only [model_fun, model_fun_claimed, List.zipWith, List.map,
    List.headD, hsum] at h0
  -- h0 : 1 - 1/√5 * exp(-(π*1*5/(1*1))) = 1 - 1/√1 * exp(-(π*1*1/(1*1)))
  have h5 : (1 : ℝ) < Real.sqrt 5 := by
    have : (1 : ℝ) = Real.sqrt 1 := (Real.sqrt_one).symm
    rw [this]
    exact Real.sqrt_lt_sqrt (by norm_num) (by norm_num)
  have hlt : Real.exp (-((Real.pi * 1 * 5) / (1 * 1))) / Real.sqrt 5 <
      Real.exp (-((Real.pi * 1 * 1) / (1 * 1))) := by
    have hmono : Real.exp (-((Real.pi * 1 * 5) / (1 * 1))) <
        Real.exp (-((Real.pi * 1 * 1) / (1 * 1))) := by
      apply Real.exp_lt_exp_of_lt
      have hpi := Real.pi_pos
      nlinarith
    calc Real.exp (-((Real.pi * 1 * 5) / (1 * 1))) / Real.sqrt 5
        < Real.exp (-((Real.pi * 1 * 5) / (1 * 1))) / 1 := by
          apply div_lt_div_of_pos_left (Real.exp_pos _) (by norm_num) h5
      _ = Real.exp (-((Real.pi * 1 * 5) / (1 * 1))) := by ring
      _ < Real.exp (-((Real.pi * 1 * 1) / (1 * 1))) := hmono
  rw [Real.sqrt_one] at h0
  have hdm : 1 / Real.sqrt 5 * Real.exp (-((Real.pi * 1 * 5) / (1 * 1))) =
      Real.exp (-((Real.pi * 1 * 5) / (1 * 1))) / Real.sqrt 5 := by ring
  rw [hdm] at h0
  linarith [hlt]

/-! ## FMI inversion (`src/pyseis/fmi_inversion.py`, lines 54-100)

A float that may be NaN is `Option ℝ` (`none` = NaN); a spectrum column is a
list of such values.  `np.argmin` returns the first index attaining the
minimum; it is embedded as the fold `idxminGo`. -/

/-- Inner loop of `np.argmin`: scan the remaining list, replacing the current
best index/value only on a strictly smaller value (so the first minimum
wins). -/
noncomputable def idxminGo (bi : ℕ) (bv : ℝ) (i : ℕ) : List ℝ → ℕ
  | [] => bi
  | x :: xs => if x < bv then idxminGo i x (i + 1) xs else idxminGo bi bv (i + 1) xs

/-- `np.argmin` on a list of reals (0 on the empty list). -/
noncomputable def idxmin : List ℝ → ℕ
  | [] => 0
  | x :: xs => idxminGo 0 x 1 xs

/-- `np.min` on a list of reals (0 on the empty list). -/
noncomputable def listMin : List ℝ → ℝ
  | [] => 0
  | x :: xs => xs.foldl min x

theorem idxminGo_spec (xs : List ℝ) : ∀ bi bv i,
    (idxminGo bi bv i xs = bi ∧ ∀ k < xs.length, bv ≤ xs.getD k 0) ∨
    (∃ k, k < xs.length ∧ idxminGo bi bv i xs = i + k ∧ xs.getD k 0 < bv ∧
      (∀ m < xs.length, xs.getD k 0 ≤ xs.getD m 0) ∧
      (∀ m < k, xs.getD k 0 < xs.getD m 0)) := by
  induction xs with
  | nil => intro bi bv i; exact Or.inl ⟨rfl, fun k hk => absurd hk (by simp)⟩
  | cons x xs ih =>
    intro bi bv i
    by_cases hx : x < bv
    · rcases ih i x (i + 1) with ⟨heq, hle⟩ | ⟨k, hk, heq, hlt, hmin, hstrict⟩
      · refine Or.inr ⟨0, by simp, ?_, by simpa using hx, ?_, fun m hm => absurd hm (by simp)⟩
        · simpa [idxminGo, hx] using heq
        · intro m hm
          match m with
          | 0 => simp
          | m + 1 =>
            simp only [List.getD_cons_zero, List.getD_cons_succ]
            exact hle m (by simpa using hm)
      · refine Or.inr ⟨k + 1, by simpa using hk, ?_, ?_, ?_, ?_⟩
        · simpa [idxminGo, hx, Nat.add_assoc, Nat.add_comm 1 k] using heq
        · simp only [List.getD_cons_succ]
          exact lt_trans hlt hx
        · intro m hm
          match m with
          | 0 => simpa using le_of_lt hlt
          | m + 1 => simpa using hmin m (by simpa using hm)
        · intro m hm
          match m with
          | 0 => simpa using hlt
          | m + 1 => simpa using hstrict m (by omega)
    · rcases ih bi bv (i + 1) with ⟨heq, hle⟩ | ⟨k, hk, heq, hlt, hmin, hstrict⟩
      · refine Or.inl ⟨by simpa [idxminGo, hx] using heq, ?_⟩
        intro m hm
        match m with
        | 0 => simpa using le_of_not_lt hx
        | m + 1 => simpa using hle m (by simpa using hm)
      · refine Or.inr ⟨k + 1, by simpa using hk, ?_, ?_, ?_, ?_⟩
        · simpa [idxminGo, hx, Nat.add_assoc, Nat.add_comm 1 k] using heq
        · simpa using hlt
        · intro m hm
          match m with
          | 0 => simpa using le_of_lt (lt_of_lt_of_le hlt (le_of_not_lt hx))
          | m + 1 => simpa using hmin m (by simpa using hm)
        · intro m hm
          match m with
          | 0 => simpa using lt_of_lt_of_le hlt (le_of_not_lt hx)
          | m + 1 => simpa using hstrict m (by omega)

/-- `np.argmin` characterization: on a nonempty list it returns a valid
index of a minimal element, strictly smaller than every earlier element. -/
theorem idxmin_spec (l : List ℝ) (h : l ≠ []) :
    idxmin l < l.length ∧
    (∀ j < l.length, l.getD (idxmin l) 0 ≤ l.getD j 0) ∧
    (∀ j < idxmin l, l.getD (idxmin l) 0 < l.getD j 0) := by
  match l with
  | [] => exact absurd rfl h
  | x :: xs =>
    have hgo := idxminGo_spec xs 0 x 1
    rcases hgo with ⟨heq, hle⟩ | ⟨k, hk, heq, hlt, hmin, hstrict⟩
    · refine ⟨?_, ?_, ?_⟩
      · simp [idxmin, heq]
      · intro j hj
        simp only [idxmin, heq, List.getD_cons_zero]
        match j with
        | 0 => simp
        | j + 1 => simpa using hle j (by simpa using hj)
      · intro j hj
        simp [idxmin, heq] at hj
    · refine ⟨?_, ?_, ?_⟩
      · simp only [idxmin, heq, List.length_cons]; omega
      · intro j hj
        simp only [idxmin, heq]
        have h1k : 1 + k = k + 1 := Nat.add_comm 1 k
        rw [h1k, List.getD_cons_succ]
        match j with
        | 0 => simpa using le_of_lt hlt
        | j + 1 => simpa using hmin j (by simpa using hj)
      · intro j hj
        simp only [idxmin, heq] at hj ⊢
        have h1k : 1 + k = k + 1 := Nat.add_comm 1 k
        rw [h1k, List.getD_cons_succ]
        match j with
        | 0 => simpa using hlt
        | j + 1 =>
          rw [List.getD_cons_succ]
          exact hstrict j (by omega)

/-- `np.sqrt(np.mean(d**2))` for one catalogue row against a psd column:
`d = row - psd` elementwise. -/
noncomputable def rowRmse (row p : List ℝ) : ℝ :=
  let d := List.zipWith (· - ·) row p
  Real.sqrt ((d.map (fun x => x ^ 2)).sum / (d.length : ℝ))

/-- Result of `process_spectrum` for one column (dict keys `rmse_f`,
`rmse`, `mod_best`; the code stores `-1` for an invalid column). -/
structure ColumnResult where
  rmse_f : List (Option ℝ)
  rmse : Option ℝ
  mod_best : ℤ

/-- `fmi_inversion.process_spectrum`, lines 60-72. -/
noncomputable def processSpectrum (referenceSpectra : List (List ℝ))
    (psd : List (Option ℝ)) : ColumnResult :=
  if psd.all Option.isSome then
    let p := psd.filterMap id
    let rmse := referenceSpectra.map (fun row => rowRmse row p)
    let rmse_min := listMin rmse
    let mod_best := idxmin rmse
    { rmse_f := (List.zipWith (fun a b => Real.sqrt ((a - b) ^ 2))
        (referenceSpectra.getD mod_best []) p).map some
      rmse := some rmse_min
      mod_best := (mod_best : ℤ) }
  else
    { rmse_f := psd.map (fun _ => none)
      rmse := none
      mod_best := -1 }

/-- `fmi_inversion`, lines 54-100.  A reference entry is its power vector
paired with its parameter vector; `data` is the list of empirical spectrum
columns (the code iterates over `data.T`).  Returns the parameters table and
the per-frequency residual matrix, or the `ValueError` message. -/
noncomputable def fmi_inversion (reference : List (List ℝ × List ℝ))
    (data : List (List (Option ℝ))) :
    Except String (List (List (Option ℝ)) × List (List (Option ℝ))) :=
  let reference_spectra := reference.map Prod.fst
  let reference_parameters := reference.map Prod.snd
  let inversion := data.map (fun psd => processSpectrum reference_spectra psd)
  if inversion.all (fun r => r.mod_best = -1) then
    Except.error "No valid spectra found in the input data"
  else
    let width := (reference_parameters.headD []).length
    let parameters_out := inversion.map (fun r =>
      if r.mod_best = -1 then List.replicate width (none : Option ℝ)
      else (reference_parameters.getD r.mod_best.toNat []).map some)
    let rmse := inversion.map (fun r => r.rmse_f)
    Except.ok (parameters_out, rmse)

theorem getD_map_of_lt {α β : Type _} (f : α → β) (l : List α) (j : ℕ)
    (hj : j < l.length) (d : β) (d2 : α) :
    (l.map f).getD j d = f (l.getD j d2) := by
  induction l generalizing j with
  | nil => simp at hj
  | cons x xs ih =>
    match j with
    | 0 => simp
    | j + 1 =>
      simp only [List.map_cons, List.getD_cons_succ]
      exact ih j (by simpa using hj)

theorem getD_map_rmse (f : List ℝ → ℝ) (l : List (List ℝ)) (j : ℕ)
    (hj : j < l.length) : (l.map f).getD j 0 = f (l.getD j []) :=
  getD_map_of_lt f l j hj 0 []

/-- C3: for a spectrum column without NaN, `process_spectrum` selects the
catalogue index minimizing `sqrt(mean((row - psd)^2))`, ties broken by the
lowest index (the selected row's RMSE is ≤ every row's RMSE and strictly
below every earlier row's), and reports the per-frequency residual vector
`|row[best] - psd|` (`sqrt((row[best]-psd)^2)` elementwise). -/
theorem process_spectrum_selects_min (ref : List (List ℝ))
    (psd : List (Option ℝ)) (hall : psd.all Option.isSome = true)
    (hne : ref ≠ []) :
    (processSpectrum ref psd).mod_best =
      ((idxmin (ref.map (fun row => rowRmse row (psd.filterMap id)))) : ℤ) ∧
    (processSpectrum ref psd).mod_best.toNat < ref.length ∧
    (∀ j < ref.length,
      rowRmse (ref.getD (processSpectrum ref psd).mod_best.toNat [])
          (psd.filterMap id) ≤
        rowRmse (ref.getD j []) (psd.filterMap id)) ∧
    (∀ j < (processSpectrum ref psd).mod_best.toNat,
      rowRmse (ref.getD (processSpectrum ref psd).mod_best.toNat [])
          (psd.filterMap id) <
        rowRmse (ref.getD j []) (psd.filterMap id)) ∧
    (processSpectrum ref psd).rmse_f =
      (List.zipWith (fun a b => |a - b|)
        (ref.getD (processSpectrum ref psd).mod_best.toNat [])
        (psd.filterMap id)).map some := by
  have hps : processSpectrum ref psd =
      { rmse_f := (List.zipWith (fun a b => Real.sqrt ((a - b) ^ 2))
          (ref.getD (idxmin (ref.map (fun row =>
            rowRmse row (psd.filterMap id)))) []) (psd.filterMap id)).map some
        rmse := some (listMin (ref.map (fun row =>
          rowRmse row (psd.filterMap id))))
        mod_best := ((idxmin (ref.map (fun row =>
          rowRmse row (psd.filterMap id)))) : ℤ) } := by
    simp only [processSpectrum, hall, if_true]
  have hLne : ref.map (fun row => rowRmse row (psd.filterMap id)) ≠ [] := by
    simpa using hne
  obtain ⟨hlt, hmin, hstrict⟩ :=
    idxmin_spec (ref.map (fun row => rowRmse row (psd.filterMap id))) hLne
  rw [List.length_map] at hlt
  have htoNat : (processSpectrum ref psd).mod_best.toNat =
      idxmin (ref.map (fun row => rowRmse row (psd.filterMap id))) := by
    rw [hps]; simp
  refine ⟨by rw [hps], by rw [htoNat]; exact hlt, ?_, ?_, ?_⟩
  · intro j hj
    have := hmin j (by simpa using hj)
    rw [getD_map_rmse _ _ _ (htoNat ▸ hlt), getD_map_rmse _ _ _ hj] at this
    rw [htoNat]
    exact this
  · intro j hj
    rw [htoNat] at hj
    have := hstrict j hj
    rw [getD_map_rmse _ _ _ (htoNat ▸ hlt),
      getD_map_rmse _ _ _ (lt_trans hj hlt)] at this
    rw [htoNat]
    exact this
  · rw [htoNat, hps]
    simp only [Real.sqrt_sq_eq_abs]

/-- Witness for `process_spectrum_selects_min` at the concrete catalogue
`[[3], [1]]` and the NaN-free column `[some 0]`. -/
theorem process_spectrum_selects_min_witness :
    (([some (0 : ℝ)] : List (Option ℝ)).all Option.isSome = true) ∧
    (([[3], [1]] : List (List ℝ)) ≠ []) ∧
    ((processSpectrum [[3], [1]] [some (0 : ℝ)]).mod_best =
      ((idxmin (([[3], [1]] : List (List ℝ)).map (fun row =>
        rowRmse row (([some (0 : ℝ)] : List (Option ℝ)).filterMap id)))) : ℤ) ∧
    (processSpectrum [[3], [1]] [some (0 : ℝ)]).mod_best.toNat <
      ([[3], [1]] : List (List ℝ)).length ∧
    (∀ j < ([[3], [1]] : List (List ℝ)).length,
      rowRmse (([[3], [1]] : List (List ℝ)).getD
          (processSpectrum [[3], [1]] [some (0 : ℝ)]).mod_best.toNat [])
          (([some (0 : ℝ)] : List (Option ℝ)).filterMap id) ≤
        rowRmse (([[3], [1]] : List (List ℝ)).getD j [])
          (([some (0 : ℝ)] : List (Option ℝ)).filterMap id)) ∧
    (∀ j < (processSpectrum [[3], [1]] [some (0 : ℝ)]).mod_best.toNat,
      rowRmse (([[3], [1]] : List (List ℝ)).getD
          (processSpectrum [[3], [1]] [some (0 : ℝ)]).mod_best.toNat [])
          (([some (0 : ℝ)] : List (Option ℝ)).filterMap id) <
        rowRmse (([[3], [1]] : List (List ℝ)).getD j [])
          (([some (0 : ℝ)] : List (Option ℝ)).filterMap id)) ∧
    (processSpectrum [[3], [1]] [some (0 : ℝ)]).rmse_f =
      (List.zipWith (fun a b => |a - b|)
        (([[3], [1]] : List (List ℝ)).getD
          (processSpectrum [[3], [1]] [some (0 : ℝ)]).mod_best.toNat [])
        (([some (0 : ℝ)] : List (Option ℝ)).filterMap id)).map some) :=
  ⟨rfl, by simp,
    process_spectrum_selects_min [[3], [1]] [some (0 : ℝ)] rfl (by simp)⟩

/-- C4: if some column of the data is NaN-free while column `c` contains a
NaN, the inversion succeeds (no exception) and column `c` gets an all-NaN
parameters row and an all-NaN per-frequency residual row of the column's
length. -/
theorem fmi_inversion_nan_column (reference : List (List ℝ × List ℝ))
    (data : List (List (Option ℝ))) (c : ℕ) (hc : c < data.length)
    (hnan : (data.getD c []).all Option.isSome = false)
    (hvalid : ∃ col ∈ data, col.all Option.isSome) :
    ∃ pout rout, fmi_inversion reference data = Except.ok (pout, rout) ∧
      (∀ x ∈ pout.getD c [], x = none) ∧
      (∀ x ∈ rout.getD c [], x = none) ∧
      (rout.getD c []).length = (data.getD c []).length := by
  obtain ⟨col, hmem, hcol⟩ := hvalid
  have hguard : ¬ ((data.map (fun psd =>
      processSpectrum (reference.map Prod.fst) psd)).all
        (fun r => decide (r.mod_best = -1)) = true) := by
    intro hall
    have hm : processSpectrum (reference.map Prod.fst) col ∈
        data.map (fun psd => processSpectrum (reference.map Prod.fst) psd) :=
      List.mem_map_of_mem _ hmem
    have := List.all_eq_true.mp hall _ hm
    rw [processSpectrum, if_pos hcol] at this
    simp at this
  have hcres : processSpectrum (reference.map Prod.fst) (data.getD c []) =
      { rmse_f := (data.getD c []).map (fun _ => none)
        rmse := none
        mod_best := -1 } := by
    rw [processSpectrum, if_neg (by rw [hnan]; simp)]
  refine ⟨(data.map (fun psd =>
      processSpectrum (reference.map Prod.fst) psd)).map
        (fun r => if r.mod_best = -1
          then List.replicate ((reference.map Prod.snd).headD []).length
            (none : Option ℝ)
          else ((reference.map Prod.snd).getD r.mod_best.toNat []).map some),
    (data.map (fun psd => processSpectrum (reference.map Prod.fst) psd)).map
      (fun r => r.rmse_f), ?_, ?_, ?_, ?_⟩
  · simp only [fmi_inversion]
    rw [if_neg hguard]
  · intro x hx
    rw [getD_map_of_lt _ _ c (by simpa using hc) []
        (⟨[], none, -1⟩ : ColumnResult),
      getD_map_of_lt _ _ c hc (⟨[], none, -1⟩ : ColumnResult) [], hcres] at hx
    rw [if_pos rfl] at hx
    exact List.eq_of_mem_replicate hx
  · intro x hx
    rw [getD_map_of_lt _ _ c (by simpa using hc) []
        (⟨[], none, -1⟩ : ColumnResult),
      getD_map_of_lt _ _ c hc (⟨[], none, -1⟩ : ColumnResult) [], hcres] at hx
    obtain ⟨a, _, ha⟩ := List.mem_map.mp hx
    exact ha.symm
  · rw [getD_map_of_lt _ _ c (by simpa using hc) []
        (⟨[], none, -1⟩ : ColumnResult),
      getD_map_of_lt _ _ c hc (⟨[], none, -1⟩ : ColumnResult) [], hcres]
    simp

/-- Witness for `fmi_inversion_nan_column`: catalogue with one entry, data
with a valid column 0 and a NaN column 1. -/
theorem fmi_inversion_nan_column_witness :
    ((1 : ℕ) < ([[some (1 : ℝ)], [none]] : List (List (Option ℝ))).length) ∧
    ((([[some (1 : ℝ)], [none]] : List (List (Option ℝ))).getD 1 []).all
      Option.isSome = false) ∧
    (∃ col ∈ ([[some (1 : ℝ)], [none]] : List (List (Option ℝ))),
      col.all Option.isSome) ∧
    (∃ pout rout,
      fmi_inversion [([1], [7])] [[some (1 : ℝ)], [none]] =
        Except.ok (pout, rout) ∧
      (∀ x ∈ pout.getD 1 [], x = none) ∧
      (∀ x ∈ rout.getD 1 [], x = none) ∧
      (rout.getD 1 []).length =
        (([[some (1 : ℝ)], [none]] : List (List (Option ℝ))).getD 1 []).length) :=
  ⟨by simp, rfl, ⟨[some (1 : ℝ)], by simp, rfl⟩,
    fmi_inversion_nan_column [([1], [7])] [[some (1 : ℝ)], [none]] 1
      (by simp) rfl ⟨[some (1 : ℝ)], by simp, rfl⟩⟩

/-! ## Min-max normalization of the goodness raster
(`src/pyseis/spatial_amplitude.py`, lines 155-157)

`r = (r - np.nanmin(r)) / (np.nanmax(r) - np.nanmin(r))`.  NaN cells stay
NaN; when `nanmax - nanmin = 0` every finite cell is `0/0`, i.e. NaN. -/

/-- `np.max` on a list of reals (0 on the empty list). -/
noncomputable def listMax : List ℝ → ℝ
  | [] => 0
  | x :: xs => xs.foldl max x

/-- The finite (non-NaN) values of a raster, in row-major order. -/
noncomputable def finiteVals (r : List (List (Option ℝ))) : List ℝ :=
  r.flatten.filterMap id

/-- The min-max normalization step applied when `normalise=True`.  A finite
cell `v` becomes `(v - nanmin) / (nanmax - nanmin)`; when the denominator is
zero this is `0/0`, a NaN. -/
noncomputable def spatialNormalise (r : List (List (Option ℝ))) :
    List (List (Option ℝ)) :=
  let mn := listMin (finiteVals r)
  let mx := listMax (finiteVals r)
  r.map (fun row => row.map (fun c =>
    match c with
    | none => none
    | some v => if mx - mn = 0 then none else some ((v - mn) / (mx - mn))))

theorem foldl_min_le_init (l : List ℝ) : ∀ acc : ℝ, l.foldl min acc ≤ acc := by
  induction l with
  | nil => intro acc; exact le_refl acc
  | cons x xs ih =>
    intro acc
    exact le_trans (ih (min acc x)) (min_le_left acc x)

theorem foldl_min_le_mem (l : List ℝ) :
    ∀ acc : ℝ, ∀ x ∈ l, l.foldl min acc ≤ x := by
  induction l with
  | nil => intro acc x hx; simp at hx
  | cons y ys ih =>
    intro acc x hx
    rcases List.mem_cons.mp hx with h | h
    · subst h
      exact le_trans (foldl_min_le_init ys (min acc x)) (min_le_right acc x)
    · exact ih (min acc y) x h

theorem foldl_max_init_le (l : List ℝ) : ∀ acc : ℝ, acc ≤ l.foldl max acc := by
  induction l with
  | nil => intro acc; exact le_refl acc
  | cons x xs ih =>
    intro acc
    exact le_trans (le_max_left acc x) (ih (max acc x))

theorem foldl_max_mem_le (l : List ℝ) :
    ∀ acc : ℝ, ∀ x ∈ l, x ≤ l.foldl max acc := by
  induction l with
  | nil => intro acc x hx; simp at hx
  | cons y ys ih =>
    intro acc x hx
    rcases List.mem_cons.mp hx with h | h
    · subst h
      exact le_trans (le_max_right acc x) (foldl_max_init_le ys (max acc x))
    · exact ih (max acc y) x h

theorem foldl_max_mem_or (l : List ℝ) :
    ∀ acc : ℝ, l.foldl max acc = acc ∨ l.foldl max acc ∈ l := by
  induction l with
  | nil => intro acc; exact Or.inl rfl
  | cons x xs ih =>
    intro acc
    rcases ih (max acc x) with h | h
    · rcases max_choice acc x with hm | hm
      · exact Or.inl (by rw [List.foldl_cons, h, hm])
      · exact Or.inr (by rw [List.foldl_cons, h, hm]; exact List.mem_cons_self x xs)
    · exact Or.inr (List.mem_cons_of_mem x h)

theorem listMin_le_mem (l : List ℝ) (x : ℝ) (hx : x ∈ l) : listMin l ≤ x := by
  match l with
  | [] => simp at hx
  | y :: ys =>
    rcases List.mem_cons.mp hx with h | h
    · subst h; exact foldl_min_le_init ys x
    · exact foldl_min_le_mem ys y x h

theorem mem_le_listMax (l : List ℝ) (x : ℝ) (hx : x ∈ l) : x ≤ listMax l := by
  match l with
  | [] => simp at hx
  | y :: ys =>
    rcases List.mem_cons.mp hx with h | h
    · subst h; exact foldl_max_init_le ys x
    · exact foldl_max_mem_le ys y x h

theorem listMax_mem (l : List ℝ) (h : l ≠ []) : listMax l ∈ l := by
  match l with
  | [] => exact absurd rfl h
  | y :: ys =>
    rcases foldl_max_mem_or ys y with hm | hm
    · rw [listMax, hm]; exact List.mem_cons_self y ys
    · exact List.mem_cons_of_mem y hm

/-- C9 counterexample: a computed goodness raster with exactly one finite
cell (e.g. `[[5, NaN]]`, as a one-pixel AOI produces) has `nanmax = nanmin`,
so min-max normalization turns every cell into NaN: no finite cell remains
and no cell equals 1, although the raster had a finite cell before
normalization. -/
theorem spatial_normalise_constant_raster :
    (∃ row ∈ [[some (5 : ℝ), none]], ∃ c ∈ row, c ≠ (none : Option ℝ)) ∧
    spatialNormalise [[some (5 : ℝ), none]] = [[none, none]] ∧
    ¬ (∃ row ∈ spatialNormalise [[some (5 : ℝ), none]], ∃ c ∈ row,
        c = some (1 : ℝ)) := by
  have h1 : finiteVals [[some (5 : ℝ), none]] = [5] := by
    simp [finiteVals]
  have hnorm : spatialNormalise [[some (5 : ℝ), none]] = [[none, none]] := by
    simp only [spatialNormalise, h1, listMin, listMax, List.foldl_nil,
      List.map_cons, List.map_nil]
    rw [if_pos (by norm_num)]
  refine ⟨⟨[some (5 : ℝ), none], by simp, some 5, by simp, by simp⟩, hnorm, ?_⟩
  rw [hnorm]
  rintro ⟨row, hrow, c, hc, hc1⟩
  simp at hrow
  subst hrow
  rcases List.mem_cons.mp hc with h | h
  · exact Option.noConfusion (h ▸ hc1)
  · simp at h
    exact Option.noConfusion (h ▸ hc1)

/-- C9 (amended): when `normalise=true` and the computed goodness raster has
at least two distinct finite values (`nanmin < nanmax`), every finite cell
of the returned raster lies in `[0, 1]` and at least one cell equals
exactly 1; if all finite cells are equal (in particular if only one finite
cell exists) the returned raster is entirely NaN. -/
theorem spatial_normalise_bounds (r : List (List (Option ℝ)))
    (hlt : listMin (finiteVals r) < listMax (finiteVals r)) :
    (∀ row ∈ spatialNormalise r, ∀ c ∈ row, ∀ v : ℝ, c = some v →
      0 ≤ v ∧ v ≤ 1) ∧
    (∃ row ∈ spatialNormalise r, ∃ c ∈ row, c = some (1 : ℝ)) := by
  set mn := listMin (finiteVals r) with hmn
  set mx := listMax (finiteVals r) with hmx
  have hden : mx - mn ≠ 0 := by linarith
  have hdenpos : 0 < mx - mn := by linarith
  constructor
  · intro row hrow c hc v hcv
    obtain ⟨row0, hrow0, hrowe⟩ := List.mem_map.mp hrow
    subst hrowe
    obtain ⟨c0, hc0, hce⟩ := List.mem_map.mp hc
    match c0 with
    | none => rw [← hce] at hcv; exact Option.noConfusion hcv
    | some w =>
      have hcv2 : (if mx - mn = 0 then (none : Option ℝ)
          else some ((w - mn) / (mx - mn))) = some v := hce.trans hcv
      rw [if_neg hden] at hcv2
      have hw : w ∈ finiteVals r := by
        simp only [finiteVals, List.mem_filterMap]
        exact ⟨some w, List.mem_flatten.mpr ⟨row0, hrow0, hc0⟩, rfl⟩
      have hwmn : mn ≤ w := listMin_le_mem _ _ hw
      have hwmx : w ≤ mx := mem_le_listMax _ _ hw
      have hv : v = (w - mn) / (mx - mn) := (Option.some.inj hcv2).symm
      constructor
      · rw [hv]; exact div_nonneg (by linarith) (le_of_lt hdenpos)
      · rw [hv]; exact (div_le_one hdenpos).mpr (by linarith)
  · have hfne : finiteVals r ≠ [] := by
      intro he
      rw [hmn, hmx, he] at hlt
      simp [listMin, listMax] at hlt
    have hmxmem : mx ∈ finiteVals r := hmx ▸ listMax_mem _ hfne
    simp only [finiteVals, List.mem_filterMap] at hmxmem
    obtain ⟨o, ho, hoe⟩ := hmxmem
    obtain ⟨row, hrow, hcell⟩ := List.mem_flatten.mp ho
    have hoeq : o = some mx := by
      match o with
      | none => exact Option.noConfusion hoe
      | some w => simpa using hoe
    refine ⟨row.map (fun c =>
      match c with
      | none => none
      | some v => if mx - mn = 0 then none else some ((v - mn) / (mx - mn))),
      ?_, ?_⟩
    · exact List.mem_map_of_mem _ hrow
    · refine ⟨(fun c =>
        match c with
        | none => none
        | some v => if mx - mn = 0 then none
            else some ((v - mn) / (mx - mn))) o, List.mem_map_of_mem _ hcell, ?_⟩
      rw [hoeq]
      have hred : (fun c =>
          match c with
          | none => none
          | some v => if mx - mn = 0 then none
              else some ((v - mn) / (mx - mn))) (some mx) =
          if mx - mn = 0 then none else some ((mx - mn) / (mx - mn)) := rfl
      rw [hred, if_neg hden]
      congr 1
      field_simp

/-- Witness for `spatial_normalise_bounds` on the raster `[[0, 2]]`. -/
theorem spatial_normalise_bounds_witness :
    (listMin (finiteVals [[some (0 : ℝ), some 2]]) <
      listMax (finiteVals [[some (0 : ℝ), some 2]])) ∧
    ((∀ row ∈ spatialNormalise [[some (0 : ℝ), some 2]], ∀ c ∈ row,
        ∀ v : ℝ, c = some v → 0 ≤ v ∧ v ≤ 1) ∧
      (∃ row ∈ spatialNormalise [[some (0 : ℝ), some 2]], ∃ c ∈ row,
        c = some (1 : ℝ))) := by
  have h : listMin (finiteVals [[some (0 : ℝ), some 2]]) <
      listMax (finiteVals [[some (0 : ℝ), some 2]]) := by
    have h1 : finiteVals [[some (0 : ℝ), some 2]] = [0, 2] := by
      simp [finiteVals]
    rw [h1]
    simp only [listMin, listMax, List.foldl_cons, List.foldl_nil]
    norm_num
  exact ⟨h, spatial_normalise_bounds _ h⟩

/-! ## Most-likely source location (`src/pyseis/spatial_pmax.py`)

`np.argmax` scans in C (row-major) order keeping the running maximum; a
value replaces the running maximum when it compares greater **or is NaN**,
and the scan stops at the first NaN (NaN is treated as greater than
everything).  `none` is NaN; the element type is any linear order. -/

/-- Scanning loop of `np.argmax` over possibly-NaN values: `bi`/`bv` are the
current best index and value, `i` the index of the head of the remaining
list.  A `none` running maximum ends the scan. -/
def npArgmaxGo {α : Type _} [LinearOrder α] (bi : ℕ) (bv : Option α) (i : ℕ) :
    List (Option α) → ℕ
  | [] => bi
  | x :: xs =>
    match bv with
    | none => bi
    | some b =>
      match x with
      | none => npArgmaxGo i none (i + 1) xs
      | some v =>
        if b < v then npArgmaxGo i (some v) (i + 1) xs
        else npArgmaxGo bi (some b) (i + 1) xs

/-- `np.argmax` on a flat list of possibly-NaN values (0 on the empty
list). -/
def npArgmax {α : Type _} [LinearOrder α] : List (Option α) → ℕ
  | [] => 0
  | x :: xs => npArgmaxGo 0 x 1 xs

/-- `spatial_pmax` on a 2D array input: flatten in row-major order, take
`np.argmax`, and unravel the flat index with the row width. -/
def spatial_pmax {α : Type _} [LinearOrder α] (data : List (List (Option α))) :
    ℕ × ℕ :=
  let w := (data.headD []).length
  let flat := data.flatten
  let idx := npArgmax flat
  (idx / w, idx % w)

theorem npArgmaxGo_none {α : Type _} [LinearOrder α]
    (xs : List (Option α)) (bi i : ℕ) :
    npArgmaxGo bi (none : Option α) i xs = bi := by
  cases xs <;> rfl

theorem npArgmaxGo_first_none {α : Type _} [LinearOrder α]
    (xs : List (Option α)) : ∀ (b : α) (bi i : ℕ),
    xs.any (fun o => o.isNone) = true →
    npArgmaxGo bi (some b) i xs = i + xs.findIdx (fun o => o.isNone) := by
  induction xs with
  | nil => intro b bi i h; simp at h
  | cons x xs ih =>
    intro b bi i h
    match x with
    | none =>
      rw [show npArgmaxGo bi (some b) i (none :: xs) =
        npArgmaxGo i none (i + 1) xs from rfl, npArgmaxGo_none]
      simp [List.findIdx_cons]
    | some v =>
      have hx : xs.any (fun o => o.isNone) = true := by
        simpa using h
      rw [List.findIdx_cons]
      simp only [Option.isNone_some, cond_false]
      by_cases hlt : b < v
      · rw [show npArgmaxGo bi (some b) i (some v :: xs) =
          npArgmaxGo i (some v) (i + 1) xs from by rw [npArgmaxGo, if_pos hlt]]
        rw [ih v i (i + 1) hx]
        omega
      · rw [show npArgmaxGo bi (some b) i (some v :: xs) =
          npArgmaxGo bi (some b) (i + 1) xs from by rw [npArgmaxGo, if_neg hlt]]
        rw [ih b bi (i + 1) hx]
        omega

/-- `np.argmax` returns the index of the first NaN when one is present. -/
theorem npArgmax_first_none {α : Type _} [LinearOrder α]
    (l : List (Option α)) (h : l.any (fun o => o.isNone) = true) :
    npArgmax l = l.findIdx (fun o => o.isNone) := by
  match l with
  | [] => simp at h
  | none :: xs =>
    rw [show npArgmax ((none : Option α) :: xs) =
      npArgmaxGo 0 none 1 xs from rfl, npArgmaxGo_none]
    simp [List.findIdx_cons]
  | some v :: xs =>
    have hx : xs.any (fun o => o.isNone) = true := by simpa using h
    rw [show npArgmax (some v :: xs) = npArgmaxGo 0 (some v) 1 xs from rfl,
      npArgmaxGo_first_none xs v 0 1 hx, List.findIdx_cons]
    simp only [Option.isNone_some, cond_false]
    omega

/-- C10: on a 2D array containing at least one NaN cell, `spatial_pmax`
returns the row-major position of the first NaN cell — a cell that is
itself NaN (hence, for a goodness raster whose NaN cells mark out-of-AOI or
invalid pixels, an invalid cell) — not the position of the largest finite
value. -/
theorem spatial_pmax_returns_first_nan {α : Type _} [LinearOrder α]
    (data : List (List (Option α)))
    (h : data.flatten.any (fun o => o.isNone) = true) :
    spatial_pmax data =
      (data.flatten.findIdx (fun o => o.isNone) / (data.headD []).length,
       data.flatten.findIdx (fun o => o.isNone) % (data.headD []).length) ∧
    ∃ hk : data.flatten.findIdx (fun o => o.isNone) < data.flatten.length,
      data.flatten.get ⟨data.flatten.findIdx (fun o => o.isNone), hk⟩ =
        none := by
  obtain ⟨x, hxmem, hx⟩ := List.any_eq_true.mp h
  have hk : data.flatten.findIdx (fun o => o.isNone) < data.flatten.length :=
    List.findIdx_lt_length_of_exists ⟨x, hxmem, hx⟩
  refine ⟨?_, hk, ?_⟩
  · simp only [spatial_pmax]
    rw [npArgmax_first_none _ h]
  · have h2 : Option.isNone
        (data.flatten.get ⟨data.flatten.findIdx (fun o => o.isNone), hk⟩) =
        true := by
      rw [List.get_eq_getElem]
      exact List.findIdx_getElem (w := hk)
    exact Option.isNone_iff_eq_none.mp h2

/-- Witness for `spatial_pmax_returns_first_nan` on the concrete raster
`[[1, NaN], [5, 7]]` (rationals as cell values): the reported position is
the NaN at row 0, column 1, not the largest finite value 7. -/
theorem spatial_pmax_returns_first_nan_witness :
    (([[some (1 : ℚ), none], [some 5, some 7]] :
        List (List (Option ℚ))).flatten.any (fun o => o.isNone) = true) ∧
    (spatial_pmax [[some (1 : ℚ), none], [some 5, some 7]] =
      (([[some (1 : ℚ), none], [some 5, some 7]] :
          List (List (Option ℚ))).flatten.findIdx (fun o => o.isNone) /
        (([[some (1 : ℚ), none], [some 5, some 7]] :
          List (List (Option ℚ))).headD []).length,
       ([[some (1 : ℚ), none], [some 5, some 7]] :
          List (List (Option ℚ))).flatten.findIdx (fun o => o.isNone) %
        (([[some (1 : ℚ), none], [some 5, some 7]] :
          List (List (Option ℚ))).headD []).length) ∧
      ∃ hk : ([[some (1 : ℚ), none], [some 5, some 7]] :
          List (List (Option ℚ))).flatten.findIdx (fun o => o.isNone) <
        ([[some (1 : ℚ), none], [some 5, some 7]] :
          List (List (Option ℚ))).flatten.length,
        ([[some (1 : ℚ), none], [some 5, some 7]] :
          List (List (Option ℚ))).flatten.get
          ⟨([[some (1 : ℚ), none], [some 5, some 7]] :
            List (List (Option ℚ))).flatten.findIdx (fun o => o.isNone), hk⟩ =
          none) :=
  ⟨by decide, spatial_pmax_returns_first_nan
    [[some (1 : ℚ), none], [some 5, some 7]] (by decide)⟩

/-! ## Distance engine (`src/pyseis/spatial_distance.py`)

Per processed pair (station, target) the code builds `n_int` points with
`np.linspace` on each planar coordinate, samples the terrain elevation
(`elev`) at those points, linearly interpolates the elevation between the
two endpoints (`z_dir`), clamps it down to the terrain where it exceeds it
(`topography=True`), and sums the consecutive 3D segment lengths.  `lin a b
n k` is the `k`-th entry of `np.linspace(a, b, n)` (see `linspace_getD`). -/

/-- `np.linspace(a, b, n)[k]` as a function of the index. -/
noncomputable def lin (a b : ℝ) (n k : ℕ) : ℝ :=
  a + ((b - a) * k) / ((n : ℝ) - 1)

theorem linspace_getD (a b : ℝ) (n k : ℕ) (hk : k < n) :
    (linspace a b n).getD k 0 = lin a b n k := by
  rw [List.getD_eq_getElem _ _ (by rw [linspace_length]; exact hk)]
  simp [linspace, lin]

/-- Terrain elevation sampled at the `k`-th interpolation point
(`z_int[k]`). -/
noncomputable def zInt (elev : ℝ → ℝ → ℝ) (px py qx qy : ℝ) (n k : ℕ) : ℝ :=
  elev (lin px qx n k) (lin py qy n k)

/-- Straight-line elevation profile `z_dir[k] = np.linspace(z_int[0],
z_int[-1], n_int)[k]`. -/
noncomputable def zDir (elev : ℝ → ℝ → ℝ) (px py qx qy : ℝ) (n k : ℕ) : ℝ :=
  lin (zInt elev px py qx qy n 0) (zInt elev px py qx qy n (n - 1)) n k

/-- The elevation actually used for segment `k`: with `topography=True`,
`z_dir` is clamped down to `z_int` wherever `z_dir > z_int`. -/
noncomputable def zPath (topography : Bool) (elev : ℝ → ℝ → ℝ)
    (px py qx qy : ℝ) (n k : ℕ) : ℝ :=
  if topography = true ∧ zInt elev px py qx qy n k < zDir elev px py qx qy n k
  then zInt elev px py qx qy n k
  else zDir elev px py qx qy n k

/-- Length `np.sqrt(dx**2 + dy**2 + dz**2)` of one 3D segment. -/
noncomputable def segLen3 (dx dy dz : ℝ) : ℝ :=
  Real.sqrt (dx ^ 2 + dy ^ 2 + dz ^ 2)

/-- Total path length: sum of the `n - 1` consecutive segment lengths. -/
noncomputable def pathLength (topography : Bool) (elev : ℝ → ℝ → ℝ)
    (px py qx qy : ℝ) (n : ℕ) : ℝ :=
  ∑ k ∈ Finset.Ico 1 n, segLen3
    (lin px qx n k - lin px qx n (k - 1))
    (lin py qy n k - lin py qy n (k - 1))
    (zPath topography elev px py qx qy n k -
      zPath topography elev px py qx qy n (k - 1))

/-- Pure 3D straight-line distance between the two points, each at its own
terrain elevation. -/
noncomputable def straight3 (elev : ℝ → ℝ → ℝ) (px py qx qy : ℝ) : ℝ :=
  Real.sqrt ((px - qx) ^ 2 + (py - qy) ^ 2 +
    (elev px py - elev qx qy) ^ 2)

/-- Interpolation count of the distance-map loop (lines 77-81):
`np.round(l_line / res)`, forced to at least 1. -/
noncomputable def nIntMap (px py qx qy res : ℝ) : ℕ :=
  max (round (Real.sqrt ((px - qx) ^ 2 + (py - qy) ^ 2) / res)).toNat 1

/-- Interpolation count of the matrix loop (line 146):
`max(int(np.round(l_line / res)), 2)`. -/
noncomputable def nIntMatrix (px py qx qy res : ℝ) : ℕ :=
  max (round (Real.sqrt ((px - qx) ^ 2 + (py - qy) ^ 2) / res)).toNat 2

/-- Distance-map entry for one (station, pixel) pair (lines 69-108). -/
noncomputable def mapEntry (topography : Bool) (elev : ℝ → ℝ → ℝ) (res : ℝ)
    (p q : ℝ × ℝ) : ℝ :=
  pathLength topography elev p.1 p.2 q.1 q.2 (nIntMap p.1 p.2 q.1 q.2 res)

/-- Station-to-station matrix entry `M[i,j]` (lines 141-166). -/
noncomputable def matrixEntry (topography : Bool) (elev : ℝ → ℝ → ℝ)
    (res : ℝ) (p q : ℝ × ℝ) : ℝ :=
  pathLength topography elev p.1 p.2 q.1 q.2
    (nIntMatrix p.1 p.2 q.1 q.2 res)

theorem lin_zero (a b : ℝ) (n : ℕ) : lin a b n 0 = a := by
  simp [lin]

theorem lin_self (a : ℝ) (n k : ℕ) : lin a a n k = a := by
  simp [lin]

theorem lin_last (a b : ℝ) (n : ℕ) (hn : 2 ≤ n) : lin a b n (n - 1) = b := by
  have h1 : ((n - 1 : ℕ) : ℝ) = (n : ℝ) - 1 := by
    push_cast [Nat.cast_sub (by omega : 1 ≤ n)]
    ring
  have h2 : (n : ℝ) - 1 ≠ 0 := by
    have : (2 : ℝ) ≤ (n : ℝ) := by exact_mod_cast hn
    linarith
  rw [lin, h1]
  field_simp

theorem lin_delta (a b : ℝ) (n k : ℕ) (hk : 1 ≤ k) :
    lin a b n k - lin a b n (k - 1) = (b - a) / ((n : ℝ) - 1) := by
  have h1 : ((k - 1 : ℕ) : ℝ) = (k : ℝ) - 1 := by
    push_cast [Nat.cast_sub hk]
    ring
  rw [lin, lin, h1]
  ring

theorem lin_rev (a b : ℝ) (n k : ℕ) (hn : 2 ≤ n) (hk : k ≤ n - 1) :
    lin b a n k = lin a b n (n - 1 - k) := by
  have h3 : n - 1 - k + (k + 1) = n := by omega
  have h1 : ((n - 1 - k : ℕ) : ℝ) = (n : ℝ) - 1 - (k : ℝ) := by
    have := congrArg (fun m : ℕ => (m : ℝ)) h3
    push_cast at this
    linarith
  have h2 : (n : ℝ) - 1 ≠ 0 := by
    have : (2 : ℝ) ≤ (n : ℝ) := by exact_mod_cast hn
    linarith
  rw [lin, lin, h1]
  field_simp
  ring

theorem segLen3_neg (x y z : ℝ) : segLen3 (-x) (-y) (-z) = segLen3 x y z := by
  rw [segLen3, segLen3]
  ring_nf

theorem zInt_rev (elev : ℝ → ℝ → ℝ) (px py qx qy : ℝ) (n k : ℕ)
    (hn : 2 ≤ n) (hk : k ≤ n - 1) :
    zInt elev qx qy px py n k = zInt elev px py qx qy n (n - 1 - k) := by
  rw [zInt, zInt, lin_rev px qx n k hn hk, lin_rev py qy n k hn hk]

theorem zDir_rev (elev : ℝ → ℝ → ℝ) (px py qx qy : ℝ) (n k : ℕ)
    (hn : 2 ≤ n) (hk : k ≤ n - 1) :
    zDir elev qx qy px py n k = zDir elev px py qx qy n (n - 1 - k) := by
  rw [zDir, zDir, zInt_rev elev px py qx qy n 0 hn (by omega),
    zInt_rev elev px py qx qy n (n - 1) hn (by omega)]
  simp only [Nat.sub_zero, Nat.sub_self]
  exact lin_rev _ _ n k hn hk

theorem zPath_rev (topography : Bool) (elev : ℝ → ℝ → ℝ)
    (px py qx qy : ℝ) (n k : ℕ) (hn : 2 ≤ n) (hk : k ≤ n - 1) :
    zPath topography elev qx qy px py n k =
      zPath topography elev px py qx qy n (n - 1 - k) := by
  rw [zPath, zPath, zInt_rev elev px py qx qy n k hn hk,
    zDir_rev elev px py qx qy n k hn hk]

theorem pathLength_symm (topography : Bool) (elev : ℝ → ℝ → ℝ)
    (px py qx qy : ℝ) (n : ℕ) (hn : 2 ≤ n) :
    pathLength topography elev qx qy px py n =
      pathLength topography elev px py qx qy n := by
  rw [pathLength, pathLength, Finset.sum_Ico_eq_sum_range,
    Finset.sum_Ico_eq_sum_range]
  rw [← Finset.sum_range_reflect]
  apply Finset.sum_congr rfl
  intro j hj
  have hj1 : j < n - 1 := Finset.mem_range.mp hj
  -- left index: k = 1 + (n - 1 - 1 - j); right index: k' = 1 + j
  have hk1 : 1 + (n - 1 - 1 - j) = n - 1 - j := by omega
  have hk2 : (1 + j) - 1 = j := by omega
  rw [hk2, hk1]
  have hi1 : n - 1 - (n - 1 - j) = j := by omega
  have hi2 : n - 1 - (n - 1 - j - 1) = j + 1 := by omega
  have e1 : lin qx px n (n - 1 - j) = lin px qx n j := by
    rw [lin_rev px qx n (n - 1 - j) hn (by omega), hi1]
  have e1b : lin qx px n (n - 1 - j - 1) = lin px qx n (j + 1) := by
    rw [lin_rev px qx n (n - 1 - j - 1) hn (by omega), hi2]
  have e2 : lin qy py n (n - 1 - j) = lin py qy n j := by
    rw [lin_rev py qy n (n - 1 - j) hn (by omega), hi1]
  have e2b : lin qy py n (n - 1 - j - 1) = lin py qy n (j + 1) := by
    rw [lin_rev py qy n (n - 1 - j - 1) hn (by omega), hi2]
  have e3 : zPath topography elev qx qy px py n (n - 1 - j) =
      zPath topography elev px py qx qy n j := by
    rw [zPath_rev topography elev px py qx qy n (n - 1 - j) hn (by omega), hi1]
  have e3b : zPath topography elev qx qy px py n (n - 1 - j - 1) =
      zPath topography elev px py qx qy n (j + 1) := by
    rw [zPath_rev topography elev px py qx qy n (n - 1 - j - 1) hn
      (by omega), hi2]
  have hjj : 1 + j = j + 1 := by omega
  rw [e1, e1b, e2, e2b, e3, e3b, hjj]
  rw [show lin px qx n j - lin px qx n (j + 1) =
    -(lin px qx n (j + 1) - lin px qx n j) from by ring]
  rw [show lin py qy n j - lin py qy n (j + 1) =
    -(lin py qy n (j + 1) - lin py qy n j) from by ring]
  rw [show zPath topography elev px py qx qy n j -
      zPath topography elev px py qx qy n (j + 1) =
    -(zPath topography elev px py qx qy n (j + 1) -
      zPath topography elev px py qx qy n j) from by ring]
  rw [segLen3_neg]

theorem pathLength_self (topography : Bool) (elev : ℝ → ℝ → ℝ)
    (px py : ℝ) (n : ℕ) :
    pathLength topography elev px py px py n = 0 := by
  rw [pathLength]
  apply Finset.sum_eq_zero
  intro k hk
  have hz : ∀ m : ℕ, zPath topography elev px py px py n m =
      elev px py := by
    intro m
    simp only [zPath, zDir, zInt, lin_self]
    simp
  simp only [hz, lin_self]
  simp [segLen3]

/-- C8: the station-to-station distance matrix entry is symmetric in the two
stations (exactly, in real arithmetic) and zero on the diagonal, for either
value of the `topography` flag, any terrain, and any grid resolution. -/
theorem two_le_nIntMatrix (px py qx qy res : ℝ) :
    2 ≤ nIntMatrix px py qx qy res := by
  rw [nIntMatrix]
  exact le_max_right _ 2

theorem distance_matrix_symm_diag (topography : Bool)
    (elev : ℝ → ℝ → ℝ) (res : ℝ) (p q : ℝ × ℝ) :
    matrixEntry topography elev res p q = matrixEntry topography elev res q p ∧
    matrixEntry topography elev res p p = 0 := by
  constructor
  · have hsame : nIntMatrix p.1 p.2 q.1 q.2 res =
        nIntMatrix q.1 q.2 p.1 p.2 res := by
      rw [nIntMatrix, nIntMatrix]
      have h2 : (p.1 - q.1) ^ 2 + (p.2 - q.2) ^ 2 =
          (q.1 - p.1) ^ 2 + (q.2 - p.2) ^ 2 := by ring
      rw [h2]
    rw [matrixEntry, matrixEntry, ← hsame]
    exact (pathLength_symm topography elev p.1 p.2 q.1 q.2 _
      (two_le_nIntMatrix p.1 p.2 q.1 q.2 res)).symm
  · exact pathLength_self topography elev p.1 p.2 _

/-- A 3D point as a vector in Euclidean space, to use the metric-space
triangle inequality. -/
noncomputable def vec3 (x y z : ℝ) : EuclideanSpace ℝ (Fin 3) := ![x, y, z]

theorem dist_vec3 (a b c d e f2 : ℝ) :
    dist (vec3 a b c) (vec3 d e f2) = segLen3 (a - d) (b - e) (c - f2) := by
  rw [segLen3, EuclideanSpace.dist_eq]
  congr 1
  rw [Fin.sum_univ_three]
  simp [vec3, Real.dist_eq, sq_abs]

/-- Polyline inequality: the length of a chain of segments dominates the
distance between its endpoints. -/
theorem dist_le_sum_Ico (P : ℕ → EuclideanSpace ℝ (Fin 3)) :
    ∀ n : ℕ, 1 ≤ n →
      dist (P 0) (P (n - 1)) ≤ ∑ k ∈ Finset.Ico 1 n, dist (P (k - 1)) (P k) := by
  intro n
  induction n with
  | zero => intro h; omega
  | succ m ih =>
    intro _
    match m, ih with
    | 0, _ => simp
    | m2 + 1, ih =>
      rw [Finset.sum_Ico_succ_top (by omega : 1 ≤ m2 + 1)]
      have h1 := ih (by omega)
      exact le_trans (dist_triangle (P 0) (P m2) (P (m2 + 1)))
        (add_le_add_right h1 _)

theorem pathLength_flat (elev : ℝ → ℝ → ℝ) (px py qx qy : ℝ) (n : ℕ)
    (hn : 2 ≤ n) :
    pathLength false elev px py qx qy n = straight3 elev px py qx qy := by
  have hnR : (0 : ℝ) < (n : ℝ) - 1 := by
    have : (2 : ℝ) ≤ (n : ℝ) := by exact_mod_cast hn
    linarith
  have hzp : ∀ m : ℕ, zPath false elev px py qx qy n m =
      lin (elev px py) (elev qx qy) n m := by
    intro m
    rw [zPath, if_neg (by simp), zDir, zInt, zInt, lin_zero, lin_zero,
      lin_last _ _ _ hn, lin_last _ _ _ hn]
  have hterm : ∀ k ∈ Finset.Ico 1 n,
      segLen3 (lin px qx n k - lin px qx n (k - 1))
        (lin py qy n k - lin py qy n (k - 1))
        (zPath false elev px py qx qy n k -
          zPath false elev px py qx qy n (k - 1)) =
      straight3 elev px py qx qy / ((n : ℝ) - 1) := by
    intro k hk
    have hk1 : 1 ≤ k := (Finset.mem_Ico.mp hk).1
    rw [hzp, hzp, lin_delta _ _ _ _ hk1, lin_delta _ _ _ _ hk1,
      lin_delta _ _ _ _ hk1, segLen3]
    rw [div_pow, div_pow, div_pow, div_add_div_same, div_add_div_same]
    rw [show (qx - px) ^ 2 + (qy - py) ^ 2 +
        (elev qx qy - elev px py) ^ 2 =
      (px - qx) ^ 2 + (py - qy) ^ 2 +
        (elev px py - elev qx qy) ^ 2 from by ring]
    rw [Real.sqrt_div (by positivity), Real.sqrt_sq (le_of_lt hnR),
      straight3]
  rw [pathLength, Finset.sum_congr rfl hterm, Finset.sum_const,
    Nat.card_Ico, nsmul_eq_mul]
  have hcast : ((n - 1 : ℕ) : ℝ) = (n : ℝ) - 1 := by
    push_cast [Nat.cast_sub (by omega : 1 ≤ n)]
    ring
  rw [hcast]
  field_simp

/-- C7 counterexample: a (station, pixel) pair at sub-pixel planimetric
distance 0.4 on a flat terrain gets `n_int = round(0.4) = 0`, bumped to a
single interpolation point, so the computed path length is an empty sum,
`0` — strictly below the 3D straight-line distance `0.4` for
`topography=true`, and different from it for `topography=false`. -/
theorem spatial_distance_subpixel :
    nIntMap 0.4 0 0 0 1 = 1 ∧
    mapEntry true (fun _ _ => 0) 1 (0.4, 0) (0, 0) = 0 ∧
    mapEntry false (fun _ _ => 0) 1 (0.4, 0) (0, 0) = 0 ∧
    straight3 (fun _ _ => 0) 0.4 0 0 0 = 0.4 ∧
    ¬ (straight3 (fun _ _ => 0) 0.4 0 0 0 ≤
        mapEntry true (fun _ _ => 0) 1 (0.4, 0) (0, 0)) ∧
    mapEntry false (fun _ _ => 0) 1 (0.4, 0) (0, 0) ≠
      straight3 (fun _ _ => 0) 0.4 0 0 0 := by
  have hsq : Real.sqrt (((0.4 : ℝ) - 0) ^ 2 + ((0 : ℝ) - 0) ^ 2) = 0.4 := by
    rw [show ((0.4 : ℝ) - 0) ^ 2 + ((0 : ℝ) - 0) ^ 2 = (0.4 : ℝ) ^ 2 from by
      norm_num]
    exact Real.sqrt_sq (by norm_num)
  have hround : round ((0.4 : ℝ) / 1) = 0 := by
    rw [round_eq, Int.floor_eq_zero_iff]
    constructor <;> norm_num
  have hn1 : nIntMap 0.4 0 0 0 1 = 1 := by
    rw [nIntMap, hsq, hround]
    rfl
  have hpath : ∀ t : Bool, mapEntry t (fun _ _ => 0) 1 (0.4, 0) (0, 0) = 0 := by
    intro t
    rw [mapEntry]
    have : nIntMap (0.4, (0 : ℝ)).1 (0.4, (0 : ℝ)).2 ((0 : ℝ), (0 : ℝ)).1
        ((0 : ℝ), (0 : ℝ)).2 1 = 1 := hn1
    rw [this, pathLength, Finset.Ico_self, Finset.sum_empty]
  have hstraight : straight3 (fun _ _ => 0) 0.4 0 0 0 = 0.4 := by
    rw [straight3]
    rw [show ((0.4 : ℝ) - 0) ^ 2 + ((0 : ℝ) - 0) ^ 2 +
      ((0 : ℝ) - 0) ^ 2 = (0.4 : ℝ) ^ 2 from by norm_num]
    exact Real.sqrt_sq (by norm_num)
  refine ⟨hn1, hpath true, hpath false, hstraight, ?_, ?_⟩
  · rw [hstraight, hpath true]
    norm_num
  · rw [hstraight, hpath false]
    norm_num

/-- C7 (amended): for every processed pair whose interpolation count is at
least 2 — which holds for all station-to-station matrix pairs, where the
count is clamped to `max(·, 2)`, but not for map pixels whose planimetric
distance rounds to 0, where the computed length is 0 — the `topography=true`
path length is at least the pure 3D straight-line distance between the two
points and the `topography=false` path length equals it exactly. -/
theorem path_length_vs_straight_line (elev : ℝ → ℝ → ℝ) (px py qx qy : ℝ)
    (n : ℕ) (hn : 2 ≤ n) :
    straight3 elev px py qx qy ≤ pathLength true elev px py qx qy n ∧
    pathLength false elev px py qx qy n = straight3 elev px py qx qy ∧
    ∀ res : ℝ, 2 ≤ nIntMatrix px py qx qy res := by
  refine ⟨?_, pathLength_flat elev px py qx qy n hn, fun res =>
    two_le_nIntMatrix px py qx qy res⟩
  have hz0 : zPath true elev px py qx qy n 0 = elev px py := by
    have hd0 : zDir elev px py qx qy n 0 = zInt elev px py qx qy n 0 := by
      rw [zDir, lin_zero]
    rw [zPath, hd0, if_neg (by simp), zInt, lin_zero, lin_zero]
  have hzl : zPath true elev px py qx qy n (n - 1) = elev qx qy := by
    have hdl : zDir elev px py qx qy n (n - 1) =
        zInt elev px py qx qy n (n - 1) := by
      rw [zDir, lin_last _ _ _ hn]
    rw [zPath, hdl, if_neg (by simp), zInt, lin_last _ _ _ hn,
      lin_last _ _ _ hn]
  have hterm : ∀ k ∈ Finset.Ico 1 n,
      segLen3 (lin px qx n k - lin px qx n (k - 1))
        (lin py qy n k - lin py qy n (k - 1))
        (zPath true elev px py qx qy n k -
          zPath true elev px py qx qy n (k - 1)) =
      dist (vec3 (lin px qx n (k - 1)) (lin py qy n (k - 1))
          (zPath true elev px py qx qy n (k - 1)))
        (vec3 (lin px qx n k) (lin py qy n k)
          (zPath true elev px py qx qy n k)) := by
    intro k hk
    rw [dist_vec3, ← segLen3_neg]
    congr 1 <;> ring
  rw [pathLength, Finset.sum_congr rfl hterm]
  have hple := dist_le_sum_Ico (fun k => vec3 (lin px qx n k)
    (lin py qy n k) (zPath true elev px py qx qy n k)) n (by omega)
  refine le_trans (le_of_eq ?_) hple
  show straight3 elev px py qx qy =
    dist (vec3 (lin px qx n 0) (lin py qy n 0)
        (zPath true elev px py qx qy n 0))
      (vec3 (lin px qx n (n - 1)) (lin py qy n (n - 1))
        (zPath true elev px py qx qy n (n - 1)))
  rw [lin_zero, lin_zero, lin_last _ _ _ hn, lin_last _ _ _ hn, hz0, hzl,
    dist_vec3, segLen3, straight3]

/-- Witness for `path_length_vs_straight_line` on a flat terrain with the
pair `(0,0)`, `(3,4)` and two interpolation points. -/
theorem path_length_vs_straight_line_witness :
    ((2 : ℕ) ≤ 2) ∧
    (straight3 (fun _ _ => (0 : ℝ)) 0 0 3 4 ≤
        pathLength true (fun _ _ => (0 : ℝ)) 0 0 3 4 2 ∧
      pathLength false (fun _ _ => (0 : ℝ)) 0 0 3 4 2 =
        straight3 (fun _ _ => (0 : ℝ)) 0 0 3 4 ∧
      ∀ res : ℝ, 2 ≤ nIntMatrix 0 0 3 4 res) :=
  ⟨le_refl 2, path_length_vs_straight_line (fun _ _ => (0 : ℝ)) 0 0 3 4 2
    (le_refl 2)⟩

/-! ## Parametric grain-size density (`src/pyseis/model_bedload.py`,
lines 145-156)

```
x_log = np.logspace(np.log10(0.0001), np.log10(10), num=10000)
s = s_s / np.sqrt(1 / 3 - 2 / np.pi**2)
p_s = (1 / (2*s) * (1 + np.cos(np.pi * (np.log(x_log)-np.log(d_s)) / s))) / x_log
p_s[(np.log(x_log) - np.log(d_s)) > s] = 0
p_s[(np.log(x_log) - np.log(d_s)) < -s] = 0
x_log = x_log[p_s > 0]
p_s = p_s[p_s > 0]
if not adjust:
    p_s = p_s / np.sum(p_s)
```
`np.logspace(-4, 1, 10000) = 10 ** np.linspace(-4, 1, 10000)`. -/

/-- `x_log[k]`, the `k`-th point of the log-spaced diameter template. -/
noncomputable def xLog (k : ℕ) : ℝ := (10 : ℝ) ^ (lin (-4) 1 10000 k)

/-- Half-width `s = s_s / sqrt(1/3 - 2/pi**2)` of the raised-cosine
density. -/
noncomputable def sWidth (s_s : ℝ) : ℝ :=
  s_s / Real.sqrt (1 / 3 - 2 / Real.pi ^ 2)

/-- `p_s[k]` after the two zeroing masks (the raised-cosine density over
`log(diameter)`, divided by the diameter, set to 0 outside
`|log x - log d_s| ≤ s`). -/
noncomputable def pRaw (d_s s_s : ℝ) (k : ℕ) : ℝ :=
  if Real.log (xLog k) - Real.log d_s > sWidth s_s ∨
     Real.log (xLog k) - Real.log d_s < -sWidth s_s
  then 0
  else (1 / (2 * sWidth s_s) *
    (1 + Real.cos (Real.pi * (Real.log (xLog k) - Real.log d_s) /
      sWidth s_s))) / xLog k

/-- The filtered support `x_log[p_s > 0]` paired with `p_s[p_s > 0]`. -/
noncomputable def gsdSupport (d_s s_s : ℝ) : List (ℝ × ℝ) :=
  ((List.range 10000).map (fun k => (xLog k, pRaw d_s s_s k))).filter
    (fun p => 0 < p.2)

/-- The density table with `adjust=False`: `p_s = p_s / np.sum(p_s)`. -/
noncomputable def gsdDensity (d_s s_s : ℝ) : List (ℝ × ℝ) :=
  (gsdSupport d_s s_s).map (fun p =>
    (p.1, p.2 / ((gsdSupport d_s s_s).map Prod.snd).sum))

/-- The Riemann sum of a (diameter, density) table: density times diameter
step, with the code's `np.diff(x, prepend=x[0])` convention under which the
first entry contributes a zero step. -/
noncomputable def riemannSum (l : List (ℝ × ℝ)) : ℝ :=
  (List.zipWith (fun p q => q.2 * (q.1 - p.1)) l l.tail).sum

theorem sum_map_div (l : List ℝ) (c : ℝ) :
    (l.map (fun x => x / c)).sum = l.sum / c := by
  induction l with
  | nil => simp
  | cons x xs ih => simp [ih, add_div]

/-- Each Riemann-sum term weights the step by the *current* entry's
density, so the sum is bounded by `C` times the tail densities when every
diameter lies in `(0, C]` and densities are nonnegative. -/
theorem riemannSum_le (C : ℝ) :
    ∀ l : List (ℝ × ℝ), (∀ p ∈ l, 0 ≤ p.2 ∧ 0 < p.1 ∧ p.1 ≤ C) →
      riemannSum l ≤ C * ((l.tail.map Prod.snd).sum) := by
  intro l
  induction l with
  | nil => intro h; simp [riemannSum]
  | cons p rest ih =>
    intro h
    match rest, ih with
    | [], _ => simp [riemannSum]
    | q :: t, ih =>
      have hq := h q (by simp)
      have hp := h p (by simp)
      have hstep : q.2 * (q.1 - p.1) ≤ q.2 * C := by
        apply mul_le_mul_of_nonneg_left _ hq.1
        have := hq.2.2
        have := hp.2.1
        linarith
      have hrec : riemannSum (q :: t) ≤ C * (((q :: t).tail.map Prod.snd).sum) :=
        ih (fun r hr => h r (List.mem_cons_of_mem p hr))
      have hexp : riemannSum (p :: q :: t) =
          q.2 * (q.1 - p.1) + riemannSum (q :: t) := by
        rw [riemannSum, riemannSum]
        rfl
      rw [hexp]
      have : ((q :: t).map Prod.snd).sum =
          q.2 + ((t.map Prod.snd).sum) := by simp
      calc q.2 * (q.1 - p.1) + riemannSum (q :: t)
          ≤ q.2 * C + C * ((t.map Prod.snd).sum) := by
            have : ((q :: t).tail.map Prod.snd).sum = (t.map Prod.snd).sum := by
              simp
            rw [this] at hrec
            linarith
        _ = C * (((p :: q :: t).tail.map Prod.snd).sum) := by
            simp
            ring

/-- C6 (amended): with `adjust=False` the parametric grain-size density is
normalized so that its plain (unweighted) sum equals exactly 1, provided the
raw density sum is nonzero; it is not the Riemann sum (density times
diameter step) that is normalized. -/
theorem gsd_plain_sum_one (d_s s_s : ℝ)
    (hS : ((gsdSupport d_s s_s).map Prod.snd).sum ≠ 0) :
    ((gsdDensity d_s s_s).map Prod.snd).sum = 1 := by
  rw [gsdDensity, List.map_map]
  have : (Prod.snd ∘ fun p : ℝ × ℝ =>
      (p.1, p.2 / ((gsdSupport d_s s_s).map Prod.snd).sum)) =
    (fun p : ℝ × ℝ => p.2 / ((gsdSupport d_s s_s).map Prod.snd).sum) := rfl
  rw [this]
  have h2 : ((gsdSupport d_s s_s).map (fun p : ℝ × ℝ =>
      p.2 / ((gsdSupport d_s s_s).map Prod.snd).sum)) =
    (((gsdSupport d_s s_s).map Prod.snd).map
      (fun x => x / ((gsdSupport d_s s_s).map Prod.snd).sum)) := by
    rw [List.map_map]
    rfl
  rw [h2, sum_map_div, div_self hS]

theorem variance_term_pos : 0 < 1 / 3 - 2 / Real.pi ^ 2 := by
  have h9 : (9.8695 : ℝ) < Real.pi ^ 2 := by
    nlinarith [Real.pi_gt_d6]
  have h2 : 2 / Real.pi ^ 2 < 2 / 9.8695 :=
    div_lt_div_of_pos_left (by norm_num) (by norm_num) h9
  nlinarith

theorem variance_term_lb : (0.114 : ℝ) ≤ 1 / 3 - 2 / Real.pi ^ 2 := by
  have h9 : (9.8695 : ℝ) < Real.pi ^ 2 := by
    nlinarith [Real.pi_gt_d6]
  have h2 : 2 / Real.pi ^ 2 < 2 / 9.8695 :=
    div_lt_div_of_pos_left (by norm_num) (by norm_num) h9
  nlinarith

theorem sWidth_pos : 0 < sWidth 1.35 := by
  rw [sWidth]
  exact div_pos (by norm_num) (Real.sqrt_pos.mpr variance_term_pos)

theorem sWidth_le_four : sWidth 1.35 ≤ 4 := by
  rw [sWidth]
  have hc : (0.3375 : ℝ) ≤ Real.sqrt (1 / 3 - 2 / Real.pi ^ 2) := by
    rw [Real.le_sqrt (by norm_num) (le_of_lt variance_term_pos)]
    nlinarith [variance_term_lb]
  rw [div_le_iff (Real.sqrt_pos.mpr variance_term_pos)]
  nlinarith

theorem one_le_sWidth : 1 ≤ sWidth 1.35 := by
  rw [sWidth]
  have hc : Real.sqrt (1 / 3 - 2 / Real.pi ^ 2) ≤ 1 := by
    rw [Real.sqrt_le_one]
    have : (0 : ℝ) < 2 / Real.pi ^ 2 := by
      have := Real.pi_pos
      positivity
    linarith
  rw [le_div_iff (Real.sqrt_pos.mpr variance_term_pos)]
  linarith

theorem log_ten_pos : 0 < Real.log 10 := Real.log_pos (by norm_num)

theorem log_ten_lt : Real.log 10 < 2.7726 := by
  have h16 : Real.log 10 < Real.log 16 :=
    Real.log_lt_log (by norm_num) (by norm_num)
  have h2 : Real.log 16 = 4 * Real.log 2 := by
    rw [show (16 : ℝ) = 2 ^ (4 : ℕ) from by norm_num, Real.log_pow]
    norm_num
  have := Real.log_two_lt_d9
  nlinarith

theorem xLog_pos (k : ℕ) : 0 < xLog k :=
  Real.rpow_pos_of_pos (by norm_num) _

theorem log_xLog (k : ℕ) :
    Real.log (xLog k) = lin (-4) 1 10000 k * Real.log 10 :=
  Real.log_rpow (by norm_num) _

theorem log_dstep : Real.log (0.01 : ℝ) = -(2 * Real.log 10) := by
  rw [show (0.01 : ℝ) = ((10 : ℝ) ^ (2 : ℕ))⁻¹ from by norm_num,
    Real.log_inv, Real.log_pow]
  norm_num

/-- The log-offset of grid point 4000 from `d_s = 0.01`. -/
theorem u4000_eq : Real.log (xLog 4000) - Real.log (0.01 : ℝ) =
    2 / 9999 * Real.log 10 := by
  rw [log_xLog, log_dstep]
  have hl : lin (-4) 1 10000 4000 = -4 + 20000 / 9999 := by
    rw [lin]
    norm_num
  rw [hl]
  ring_nf

theorem u4000_pos : 0 < Real.log (xLog 4000) - Real.log (0.01 : ℝ) := by
  rw [u4000_eq]
  positivity

theorem u4000_lt : Real.log (xLog 4000) - Real.log (0.01 : ℝ) < 0.00056 := by
  rw [u4000_eq]
  nlinarith [log_ten_lt, log_ten_pos]

theorem pRaw_pos_4000 : 0 < pRaw 0.01 1.35 4000 := by
  have hu1 := u4000_pos
  have hu2 := u4000_lt
  have hs1 := one_le_sWidth
  have hs0 := sWidth_pos
  rw [pRaw, if_neg (by push_neg; constructor <;> nlinarith)]
  have hx := xLog_pos 4000
  have hcos : 0 < Real.cos (Real.pi *
      (Real.log (xLog 4000) - Real.log (0.01 : ℝ)) / sWidth 1.35) := by
    apply Real.cos_pos_of_mem_Ioo
    have hpi3 := Real.pi_gt_three
    have hpi315 := Real.pi_lt_d2
    constructor
    · have : 0 ≤ Real.pi *
          (Real.log (xLog 4000) - Real.log (0.01 : ℝ)) / sWidth 1.35 := by
        positivity
      nlinarith
    · have hle : Real.pi *
          (Real.log (xLog 4000) - Real.log (0.01 : ℝ)) / sWidth 1.35 ≤
          Real.pi * (Real.log (xLog 4000) - Real.log (0.01 : ℝ)) := by
        apply div_le_self (by positivity) hs1
      nlinarith
  have h1c : (0 : ℝ) < 1 + Real.cos (Real.pi *
      (Real.log (xLog 4000) - Real.log (0.01 : ℝ)) / sWidth 1.35) := by
    linarith
  positivity

theorem support_sum_pos :
    0 < ((gsdSupport 0.01 1.35).map Prod.snd).sum := by
  apply List.sum_pos
  · intro w hw
    obtain ⟨p, hp, hpe⟩ := List.mem_map.mp hw
    have := (List.mem_filter.mp hp).2
    rw [← hpe]
    exact of_decide_eq_true this
  · intro hnil
    have hmem : (xLog 4000, pRaw 0.01 1.35 4000) ∈ gsdSupport 0.01 1.35 := by
      rw [gsdSupport]
      apply List.mem_filter.mpr
      refine ⟨List.mem_map_of_mem _ (List.mem_range.mpr (by norm_num)), ?_⟩
      exact decide_eq_true pRaw_pos_4000
    rw [List.map_eq_nil] at hnil
    rw [hnil] at hmem
    simp at hmem

theorem exp_four_le : Real.exp 4 ≤ 55 := by
  have h4 : Real.exp 4 = Real.exp 1 ^ (4 : ℕ) := by
    rw [← Real.exp_nat_mul]
    norm_num
  have he := Real.exp_one_lt_d9
  have hp : Real.exp 1 ^ (4 : ℕ) ≤ (2.7182818286 : ℝ) ^ (4 : ℕ) :=
    pow_le_pow_left (le_of_lt (Real.exp_pos 1)) (le_of_lt he) 4
  rw [h4]
  calc Real.exp 1 ^ (4 : ℕ) ≤ (2.7182818286 : ℝ) ^ (4 : ℕ) := hp
    _ ≤ 55 := by norm_num

theorem support_bounds :
    ∀ p ∈ gsdSupport 0.01 1.35, 0 < p.2 ∧ 0 < p.1 ∧ p.1 ≤ 0.55 := by
  intro p hp
  obtain ⟨hmem, hpos⟩ := List.mem_filter.mp hp
  obtain ⟨k, _, hke⟩ := List.mem_map.mp hmem
  have hp2 : 0 < p.2 := of_decide_eq_true hpos
  refine ⟨hp2, ?_, ?_⟩
  · rw [← hke]
    exact xLog_pos k
  · rw [← hke] at hp2 ⊢
    simp only at hp2 ⊢
    have hnotz : ¬ (Real.log (xLog k) - Real.log (0.01 : ℝ) > sWidth 1.35 ∨
        Real.log (xLog k) - Real.log (0.01 : ℝ) < -sWidth 1.35) := by
      intro hcond
      rw [pRaw, if_pos hcond] at hp2
      exact lt_irrefl 0 hp2
    push_neg at hnotz
    have hle : Real.log (xLog k) ≤ Real.log (0.01 : ℝ) + sWidth 1.35 := by
      linarith [hnotz.1]
    have hexp : xLog k ≤ Real.exp (Real.log (0.01 : ℝ) + sWidth 1.35) := by
      rw [← Real.exp_log (xLog_pos k)]
      exact Real.exp_le_exp.mpr hle
    rw [Real.exp_add, Real.exp_log (by norm_num : (0 : ℝ) < 0.01)] at hexp
    have hs4 : Real.exp (sWidth 1.35) ≤ Real.exp 4 :=
      Real.exp_le_exp.mpr sWidth_le_four
    have h55 := exp_four_le
    nlinarith [Real.exp_pos (sWidth 1.35)]

/-- C6 counterexample: at `d_s = 0.01`, `s_s = 1.35` (the repository's own
example parameters) and `adjust=False`, the Riemann sum of the normalized
grain-size density over its diameter support is at most `0.55` — every
diameter of the support is below `0.55` and the densities plainly sum to 1 —
hence not within `1e-3` of 1. -/
theorem gsd_riemann_sum_not_one :
    riemannSum (gsdDensity 0.01 1.35) ≤ 0.55 ∧
    ¬ (|riemannSum (gsdDensity 0.01 1.35) - 1| ≤ 1e-3) := by
  have hS := support_sum_pos
  have hcond : ∀ p ∈ gsdDensity 0.01 1.35,
      0 ≤ p.2 ∧ 0 < p.1 ∧ p.1 ≤ 0.55 := by
    intro p hp
    obtain ⟨q, hq, hqe⟩ := List.mem_map.mp hp
    obtain ⟨hq2, hq1, hq55⟩ := support_bounds q hq
    rw [← hqe]
    exact ⟨div_nonneg (le_of_lt hq2) (le_of_lt hS), hq1, hq55⟩
  have hb := riemannSum_le 0.55 (gsdDensity 0.01 1.35) hcond
  have hsum1 : ((gsdDensity 0.01 1.35).map Prod.snd).sum = 1 :=
    gsd_plain_sum_one 0.01 1.35 (ne_of_gt hS)
  have htail : (((gsdDensity 0.01 1.35).tail.map Prod.snd)).sum ≤ 1 := by
    match hd : gsdDensity 0.01 1.35, hsum1, hcond with
    | [], _, _ => simp
    | p :: t, hsum1, hcond =>
      have hp0 : 0 ≤ p.2 := (hcond p (by simp)).1
      simp only [List.map_cons, List.sum_cons] at hsum1
      simp only [List.tail_cons]
      linarith
  have hle : riemannSum (gsdDensity 0.01 1.35) ≤ 0.55 := by
    calc riemannSum (gsdDensity 0.01 1.35)
        ≤ 0.55 * (((gsdDensity 0.01 1.35).tail.map Prod.snd)).sum := hb
      _ ≤ 0.55 * 1 := by nlinarith
      _ = 0.55 := by norm_num
  refine ⟨hle, fun habs => ?_⟩
  have h1 : 1 - riemannSum (gsdDensity 0.01 1.35) ≤
      |riemannSum (gsdDensity 0.01 1.35) - 1| := by
    rw [abs_sub_comm]
    exact le_abs_self _
  linarith

/-- Witness for `gsd_plain_sum_one` at the repository's example parameters
`d_s = 0.01`, `s_s = 1.35`: the raw density sum is positive (grid point 4000
lies strictly inside the raised-cosine support), and the normalized density
then sums to exactly 1. -/
theorem gsd_plain_sum_one_witness :
    (((gsdSupport 0.01 1.35).map Prod.snd).sum ≠ 0) ∧
    ((gsdDensity 0.01 1.35).map Prod.snd).sum = 1 :=
  ⟨ne_of_gt support_sum_pos,
    gsd_plain_sum_one 0.01 1.35 (ne_of_gt support_sum_pos)⟩

end Pyseis
